import Mathlib

/-!
Verification development for the `memory.core` keyword-similarity index
(`src/services/SubjectIndex.ts`) and the chat subject-extraction pipeline
(`src/services/ChatMemoryService.ts`).

The TypeScript classes are shallowly embedded: JS `Map`s become ordered
association lists (`List (String × α)`), JS `Set`s become insertion-ordered
duplicate-free lists built with `jsSetAdd`, and JS numbers used for
similarity/confidence scores become exact rationals `ℚ`.
-/

namespace MemoryCore

/-! ## JS string primitives (ASCII fragment) -/

/-- ASCII fragment of JS `String.prototype.toLowerCase`, per character. -/
def jsToLowerChar (c : Char) : Char :=
  if c.isUpper then Char.ofNat (c.toNat + 32) else c

/-- ASCII fragment of JS `String.prototype.toLowerCase`. -/
def jsToLower (s : String) : String :=
  ⟨s.data.map jsToLowerChar⟩

/-- JS regex word-character class `\w`, i.e. `[A-Za-z0-9_]`. -/
def isWordChar (c : Char) : Bool :=
  c.isAlphanum || c = '_'

/-- JS regex whitespace class `\s` (ASCII members). -/
def isJsSpace (c : Char) : Bool :=
  c = ' ' || c = '\t' || c = '\n' || c = '\r' || c = '\x0b' || c = '\x0c'

/-- JS `String.prototype.trim` (ASCII whitespace fragment). -/
def jsTrim (s : String) : String :=
  ⟨((s.data.dropWhile isJsSpace).reverse.dropWhile isJsSpace).reverse⟩

/--
`SubjectIndex.normalizeKeyword` / the inline normalizer in `createIndexEntry`:
`String(keyword).toLowerCase().replace(/[^\w\s]/g, '').trim()`.
-/
def normalizeKeyword (s : String) : String :=
  jsTrim ⟨(jsToLower s).data.filter (fun c => isWordChar c || isJsSpace c)⟩

/-- `SubjectIndex.normalizeKeywords`: normalize each query keyword. -/
def normalizeKeywords (keywords : List String) : List String :=
  keywords.map normalizeKeyword

/-- JS `String.prototype.includes`: substring containment. -/
def jsIncludes (a b : String) : Bool :=
  decide (b.data <:+: a.data)

/-! ## JS `Set` as an insertion-ordered duplicate-free list -/

/-- JS `Set.prototype.add`: append unless already present. -/
def jsSetAdd (l : List String) (x : String) : List String :=
  if x ∈ l then l else l ++ [x]

/-- JS `new Set(iterable)`: first-occurrence deduplication. -/
def jsSetOf (l : List String) : List String :=
  l.foldl jsSetAdd []

/-! ## JS `Map` as an ordered association list -/

/-- JS `Map.prototype.get` (first matching key; real JS maps are key-unique). -/
def mapGet {α : Type} : List (String × α) → String → Option α
  | [], _ => none
  | (k', v) :: rest, k => if k' = k then some v else mapGet rest k

/-- JS `Map.prototype.set`: replace in place if the key exists, else append. -/
def mapSet {α : Type} : List (String × α) → String → α → List (String × α)
  | [], k, v => [(k, v)]
  | (k', v') :: rest, k, v =>
      if k' = k then (k, v) :: rest else (k', v') :: mapSet rest k v

/-- JS `Map.prototype.delete` (ignoring the returned boolean). -/
def mapDelete {α : Type} (m : List (String × α)) (k : String) : List (String × α) :=
  m.filter (fun p => ¬ p.1 = k)

/-! ## Data model (`SubjectIndexEntry`, `SubjectMatch`, `SubjectIndex`) -/

/--
`SubjectIndexEntry`: `idHash` is `String(entry.idHash)`; `normalizedKeywords`
models the TS `Set<string>` field as an insertion-ordered list.
-/
structure IndexEntry where
  idHash : String
  name : String
  keywords : List String
  normalizedKeywords : List String
  metadata : List (String × String) := []
  deriving Repr, DecidableEq

/-- `SubjectMatch`: one query result of `findByKeywords`. -/
structure SubjectMatch where
  idHash : String
  name : String
  keywords : List String
  matchingKeywords : List String
  relevanceScore : ℚ
  deriving Repr, DecidableEq

/-- The two private maps of the `SubjectIndex` class. -/
structure SubjectIndex where
  keywordToSubjects : List (String × List String)
  subjects : List (String × IndexEntry)
  deriving Repr, DecidableEq

/-- The freshly constructed (empty) index. -/
def initIndex : SubjectIndex := ⟨[], []⟩

/-! ## Index mutations -/

/--
One step of the keyword-indexing loop in `addSubject` (and of the
added-keywords loop in `updateSubject`): ensure a posting list exists for
`kw` and add `id` to it.
-/
def postingAdd (id : String) (m : List (String × List String)) (kw : String) :
    List (String × List String) :=
  match mapGet m kw with
  | none => mapSet m kw (jsSetAdd [] id)
  | some set => mapSet m kw (jsSetAdd set id)

/--
One step of the keyword-deindexing loop in `removeSubject` (and of the
removed-keywords loop in `updateSubject`): delete `id` from the posting
list of `kw`, pruning the list if it became empty.
-/
def postingRemove (id : String) (m : List (String × List String)) (kw : String) :
    List (String × List String) :=
  match mapGet m kw with
  | none => m
  | some set =>
      let set2 := set.filter (fun y => ¬ y = id)
      if set2.length = 0 then mapDelete m kw else mapSet m kw set2

/-- `SubjectIndex.addSubject`. -/
def addSubject (e : IndexEntry) (s : SubjectIndex) : SubjectIndex :=
  { keywordToSubjects := e.normalizedKeywords.foldl (postingAdd e.idHash) s.keywordToSubjects
    subjects := mapSet s.subjects e.idHash e }

/-- `SubjectIndex.removeSubject`: returns the boolean result and the new state. -/
def removeSubject (idHash : String) (s : SubjectIndex) : Bool × SubjectIndex :=
  match mapGet s.subjects idHash with
  | none => (false, s)
  | some entry =>
      (true,
       { keywordToSubjects := entry.normalizedKeywords.foldl (postingRemove idHash) s.keywordToSubjects
         subjects := mapDelete s.subjects idHash })

/-- `SubjectIndex.updateSubject`. -/
def updateSubject (e : IndexEntry) (s : SubjectIndex) : SubjectIndex :=
  match mapGet s.subjects e.idHash with
  | none => addSubject e s
  | some oldEntry =>
      let removedKeywords :=
        (jsSetOf oldEntry.normalizedKeywords).filter (fun kw => ¬ kw ∈ e.normalizedKeywords)
      let addedKeywords :=
        (jsSetOf e.normalizedKeywords).filter (fun kw => ¬ kw ∈ oldEntry.normalizedKeywords)
      let m1 := removedKeywords.foldl (postingRemove e.idHash) s.keywordToSubjects
      let m2 := addedKeywords.foldl (postingAdd e.idHash) m1
      { keywordToSubjects := m2
        subjects := mapSet s.subjects e.idHash e }

/-- `SubjectIndex.getSubject` (`null` becomes `none`). -/
def getSubject (idHash : String) (s : SubjectIndex) : Option IndexEntry :=
  mapGet s.subjects idHash

/-- `SubjectIndex.hasSubject`. -/
def hasSubject (idHash : String) (s : SubjectIndex) : Bool :=
  (mapGet s.subjects idHash).isSome

/-- `SubjectIndex.clear`. -/
def clearIndex (_s : SubjectIndex) : SubjectIndex := ⟨[], []⟩

/-- `SubjectIndex.buildFromSubjects`: clear, then add each entry. -/
def buildFromSubjects (entries : List IndexEntry) (s : SubjectIndex) : SubjectIndex :=
  entries.foldl (fun acc e => addSubject e acc) (clearIndex s)

/-! ## Queries -/

/--
`SubjectIndex.findMatchingKeywords`: each search keyword matches when it is
exactly a subject keyword, or (fallback) is substring-related to one.
-/
def findMatchingKeywords (searchKeywords subjectKeywords : List String) : List String :=
  searchKeywords.foldl
    (fun acc kw =>
      if kw ∈ subjectKeywords then acc ++ [kw]
      else if subjectKeywords.any (fun subjectKw =>
          jsIncludes subjectKw kw || jsIncludes kw subjectKw) then acc ++ [kw]
      else acc)
    []

/--
`SubjectIndex.calculateJaccardSimilarity` on the element lists of the two
TS sets: `|A ∩ B| / |A ∪ B|`, and `0` when the union is empty.
-/
def calculateJaccardSimilarity (setA setB : List String) : ℚ :=
  let inter := setA.filter (fun x => x ∈ setB)
  let union := jsSetOf (setA ++ setB)
  if union.length = 0 then 0 else (inter.length : ℚ) / (union.length : ℚ)

/--
The candidate-gathering loop of `findByKeywords`: union the posting lists of
every normalized query keyword into an insertion-ordered candidate set.
-/
def gatherCandidates (normalizedKeywords : List String)
    (ktos : List (String × List String)) : List String :=
  normalizedKeywords.foldl
    (fun acc kw =>
      match mapGet ktos kw with
      | none => acc
      | some subs => subs.foldl jsSetAdd acc)
    []

/-- Build the `SubjectMatch` record pushed by `findByKeywords` for one entry. -/
def matchOfEntry (searchSet : List String) (entry : IndexEntry) : SubjectMatch :=
  { idHash := entry.idHash
    name := entry.name
    keywords := entry.keywords
    matchingKeywords := findMatchingKeywords searchSet entry.normalizedKeywords
    relevanceScore := calculateJaccardSimilarity searchSet entry.normalizedKeywords }

/-- The per-candidate loop of `findByKeywords`, before sorting. -/
def collectMatches (searchSet : List String) (s : SubjectIndex)
    (candidates : List String) : List SubjectMatch :=
  candidates.foldl
    (fun acc idHashStr =>
      match mapGet s.subjects idHashStr with
      | none => acc
      | some entry =>
          if (findMatchingKeywords searchSet entry.normalizedKeywords).length > 0 then
            acc ++ [matchOfEntry searchSet entry]
          else acc)
    []

/-- Stable descending insertion, modelling `Array.prototype.sort` with the
comparator `(a, b) => b.relevanceScore - a.relevanceScore`. -/
def insertDesc (m : SubjectMatch) : List SubjectMatch → List SubjectMatch
  | [] => [m]
  | n :: ns =>
      if n.relevanceScore ≤ m.relevanceScore then m :: n :: ns else n :: insertDesc m ns

/-- Stable sort by descending `relevanceScore`. -/
def sortDesc : List SubjectMatch → List SubjectMatch
  | [] => []
  | m :: ms => insertDesc m (sortDesc ms)

/-- `SubjectIndex.findByKeywords`. -/
def findByKeywords (keywords : List String) (s : SubjectIndex) : List SubjectMatch :=
  let normalized := normalizeKeywords keywords
  let candidates := gatherCandidates normalized s.keywordToSubjects
  let searchSet := jsSetOf normalized
  sortDesc (collectMatches searchSet s candidates)

/-- `SubjectIndex.findSimilar` (the TS `limit` parameter defaults to 10). -/
def findSimilar (keywords : List String) (s : SubjectIndex) (limit : Nat := 10) :
    List SubjectMatch :=
  (findByKeywords keywords s).take limit

/-! ## Chat extraction pipeline (`ChatMemoryService.extractAndStoreSubjects`)

One batch record is the outcome of `topicAnalyzer.extractKeywords` for one
message: `.error ()` when the call throws (the per-record `catch` branch),
`.ok kws` otherwise.  Confidences are exact rationals.
-/

/-- A candidate subject produced by the extraction loop. -/
structure ExtractedSubject where
  name : String
  keywords : List String
  confidence : ℚ
  deriving Repr, DecidableEq

/-- The response record of `extractAndStoreSubjects`. -/
structure ExtractResponse where
  subjects : List ExtractedSubject
  totalMessages : Nat
  processingTime : Nat
  deriving Repr, DecidableEq

/-- JS `map.get(k) || 0) + 1` update of the `allKeywords` frequency map. -/
def jsMapInc (f : String → Option Nat) (k : String) : String → Option Nat :=
  fun k' => if k' = k then some ((f k).getD 0 + 1) else f k'

/-- JS `map.get(k) || d`: `undefined` and `0` are both falsy. -/
def jsGetOr (v : Option Nat) (d : Nat) : Nat :=
  match v with
  | none => d
  | some n => if n = 0 then d else n

/--
The body of the per-message loop in `extractAndStoreSubjects`, acting on the
state (frequency map, candidates so far).  `n` is `messages.length`; `minConf`
is `config?.minConfidence ?? 0.5`.
-/
def processRecord (n : Nat) (minConf : ℚ)
    (st : (String → Option Nat) × List ExtractedSubject)
    (rec : Except Unit (List String)) :
    (String → Option Nat) × List ExtractedSubject :=
  match rec with
  | .error _ => st
  | .ok keywords =>
      if keywords.length > 0 then
        let freq := keywords.foldl (fun f kw => jsMapInc f (jsToLower kw)) st.1
        let topKeywords := keywords.take 3
        let subjectName := String.intercalate " " topKeywords
        let avgFreq :=
          (topKeywords.foldl
            (fun sm kw => sm + (jsGetOr (freq (jsToLower kw)) 1 : ℚ)) 0) /
          (topKeywords.length : ℚ)
        let confidence := min (avgFreq / (n : ℚ)) 1
        if minConf ≤ confidence then
          (freq, st.2 ++ [⟨subjectName, topKeywords, confidence⟩])
        else (freq, st.2)
      else st

/-- The extraction loop with the batch size `n` as an explicit parameter. -/
def extractSubjectsWith (n : Nat) (minConf : ℚ)
    (records : List (Except Unit (List String))) : List ExtractedSubject :=
  (records.foldl (processRecord n minConf) (fun _ => none, [])).2

/-- The `extractedSubjects` list computed by `extractAndStoreSubjects`. -/
def extractSubjectsCore (minConf : ℚ)
    (records : List (Except Unit (List String))) : List ExtractedSubject :=
  extractSubjectsWith records.length minConf records

/--
`extractAndStoreSubjects` as a whole: precondition checks in source order,
then the extraction loop, then the response.  `enabled` models
`isEnabled(request.topicId)`, `hasAnalyzer`/`hasMemoryPlan` the dependency
checks, `records` the extractor outcomes for the retrieved messages, and
`elapsed` the wall-clock `Date.now() - startTime` difference.
-/
def extractAndStoreSubjects (topicId : String) (enabled hasAnalyzer hasMemoryPlan : Bool)
    (minConf : ℚ) (records : List (Except Unit (List String))) (elapsed : Nat) :
    Except String ExtractResponse :=
  if ¬ enabled then
    .error ("Memories not enabled for topic: " ++ topicId)
  else if ¬ hasAnalyzer then
    .error "Topic analyzer not available"
  else if ¬ hasMemoryPlan then
    .error "Memory plan not available"
  else
    .ok { subjects := extractSubjectsCore minConf records
          totalMessages := records.length
          processingTime := elapsed }

/-! ## Spec-worded and amended definitions

`normalizeSpecC1` and `extractSubjectsClaimC2` transcribe the claims' own
wording (for refutation); `normalizeAmendedC1` and `extractSubjectsAmendedC2`
transcribe the amended claims, to be proved equal to the source embeddings.
-/

/--
The C1 claim's normalizer wording: lowercase, remove every character that is
not a letter, digit, or whitespace (underscore removed), trim.
-/
def normalizeSpecC1 (s : String) : String :=
  jsTrim ⟨(jsToLower s).data.filter (fun c => c.isAlphanum || isJsSpace c)⟩

/-- Amended C1 character policy: keep letters, digits, underscore, whitespace. -/
def keepWordOrSpace : List Char → List Char
  | [] => []
  | c :: cs =>
      if isWordChar c || isJsSpace c then c :: keepWordOrSpace cs else keepWordOrSpace cs

/--
The amended C1 normalizer: lowercase, remove every character that is not an
ASCII letter, digit, underscore, or whitespace, then trim.
-/
def normalizeAmendedC1 (s : String) : String :=
  jsTrim ⟨keepWordOrSpace (jsToLower s).data⟩

/-- Stable insertion before the first strictly-less-frequent element. -/
def insertByCountDesc (f : String → Nat) (x : String) : List String → List String
  | [] => [x]
  | y :: ys => if f y < f x then x :: y :: ys else y :: insertByCountDesc f x ys

/-- Stable sort of keywords by descending frequency (first-seen order on ties). -/
def sortByCountDesc (f : String → Nat) : List String → List String
  | [] => []
  | x :: xs => insertByCountDesc f x (sortByCountDesc f xs)

/--
The C2 claim's wording of the extraction pipeline: for each record with
extracted keywords, the candidate's label consists of the 3 most-frequent
keywords counted through the current point in the batch (ties broken by
first occurrence), its confidence is their average frequency divided by the
batch size `n`, capped at 1; candidates below `minConf` are discarded.
`seen` is the list of lowercased keywords processed so far.
-/
def extractSubjectsClaimC2 (n : Nat) (minConf : ℚ) :
    List String → List (Except Unit (List String)) → List ExtractedSubject
  | _, [] => []
  | seen, .error _ :: rest => extractSubjectsClaimC2 n minConf seen rest
  | seen, .ok kws :: rest =>
      if kws.length > 0 then
        let seen2 := seen ++ kws.map jsToLower
        let top := (sortByCountDesc (fun k => seen2.count k) (jsSetOf seen2)).take 3
        let conf :=
          min ((((top.map (fun kw => (seen2.count kw : ℚ))).sum) / (top.length : ℚ)) / (n : ℚ)) 1
        (if minConf ≤ conf then [⟨String.intercalate " " top, top, conf⟩] else []) ++
          extractSubjectsClaimC2 n minConf seen2 rest
      else extractSubjectsClaimC2 n minConf seen rest

/--
The amended C2 pipeline: the candidate's label and keywords are the record's
own first up-to-3 extracted keywords (as returned by the extractor); its
confidence is the average of their lowercased frequencies counted through the
current record inclusive (recounted from the processed prefix), divided by
the batch size `n`, capped at 1; candidates below `minConf` are discarded.
-/
def extractSubjectsAmendedC2 (n : Nat) (minConf : ℚ) :
    List String → List (Except Unit (List String)) → List ExtractedSubject
  | _, [] => []
  | seen, .error _ :: rest => extractSubjectsAmendedC2 n minConf seen rest
  | seen, .ok kws :: rest =>
      if kws.length > 0 then
        let seen2 := seen ++ kws.map jsToLower
        let top := kws.take 3
        let conf :=
          min ((((top.map (fun kw => (seen2.count (jsToLower kw) : ℚ))).sum) /
            (top.length : ℚ)) / (n : ℚ)) 1
        (if minConf ≤ conf then [⟨String.intercalate " " top, top, conf⟩] else []) ++
          extractSubjectsAmendedC2 n minConf seen2 rest
      else extractSubjectsAmendedC2 n minConf seen rest

/-! ## Index invariants and state predicates -/

/-- `id` occurs in the posting list of `kw`. -/
def postingMem (s : SubjectIndex) (kw id : String) : Prop :=
  ∃ p, mapGet s.keywordToSubjects kw = some p ∧ id ∈ p

/-- Every stored entry is keyed by its own `idHash`. -/
def KeyCoherent (s : SubjectIndex) : Prop :=
  ∀ k e, mapGet s.subjects k = some e → e.idHash = k

/-- Every keyword of a stored entry has the entry's key in its posting list. -/
def PostingsCover (s : SubjectIndex) : Prop :=
  ∀ k e, mapGet s.subjects k = some e → ∀ kw ∈ e.normalizedKeywords, postingMem s kw k

/-- The invariant maintained by every public operation of `SubjectIndex`. -/
def Wf (s : SubjectIndex) : Prop :=
  KeyCoherent s ∧ PostingsCover s

/--
A strict index: additionally, every posting-list member is backed by a stored
entry that still lists the keyword (no stale references from overwrites).
-/
def ExactIndex (s : SubjectIndex) : Prop :=
  KeyCoherent s ∧
  ∀ kw id, postingMem s kw id →
    ∃ e, mapGet s.subjects id = some e ∧ kw ∈ e.normalizedKeywords

/-- Decidable check for `KeyCoherent` on a concrete state. -/
def keyCoherentB (s : SubjectIndex) : Bool :=
  s.subjects.all (fun p => p.2.idHash = p.1)

/-- Decidable check for the strictness half of `ExactIndex` on a concrete state. -/
def exactPostingsB (s : SubjectIndex) : Bool :=
  s.keywordToSubjects.all (fun p =>
    p.2.all (fun id =>
      match mapGet s.subjects id with
      | some e => p.1 ∈ e.normalizedKeywords
      | none => false))

/-- States reachable through the public operations of `SubjectIndex`. -/
inductive Reachable : SubjectIndex → Prop
  | init : Reachable initIndex
  | add (e : IndexEntry) {s : SubjectIndex} : Reachable s → Reachable (addSubject e s)
  | update (e : IndexEntry) {s : SubjectIndex} : Reachable s → Reachable (updateSubject e s)
  | remove (id : String) {s : SubjectIndex} : Reachable s → Reachable (removeSubject id s).2
  | build (es : List IndexEntry) {s : SubjectIndex} :
      Reachable s → Reachable (buildFromSubjects es s)
  | clear {s : SubjectIndex} : Reachable s → Reachable (clearIndex s)

/--
Extensional equality of index states: the stored entries agree pointwise and
each keyword has the same posting list up to JS-`Set` identity (element sets;
iteration order of a set is not part of the observable state).
-/
def StateEquiv (s1 s2 : SubjectIndex) : Prop :=
  (∀ k, mapGet s1.subjects k = mapGet s2.subjects k) ∧
  (∀ kw, (mapGet s1.keywordToSubjects kw).map List.toFinset =
    (mapGet s2.keywordToSubjects kw).map List.toFinset)

/-- Net effect of `postingAdd id` on the posting list of the touched keyword. -/
def addEff (id : String) (o : Option (List String)) : Option (List String) :=
  some (jsSetAdd (o.getD []) id)

/-- Net effect of `postingRemove id` on the posting list of the touched keyword. -/
def removeEff (id : String) (o : Option (List String)) : Option (List String) :=
  match o with
  | none => none
  | some set =>
      let set2 := set.filter (fun y => ¬ y = id)
      if set2.length = 0 then none else some set2

/-- Boolean matching predicate behind `findMatchingKeywords`. -/
def kwMatches (subjectKeywords : List String) (kw : String) : Bool :=
  decide (kw ∈ subjectKeywords) ||
    subjectKeywords.any (fun subjectKw => jsIncludes subjectKw kw || jsIncludes kw subjectKw)

/-! ## Concrete example fixtures -/

/-- C6 fixture: three subjects with Jaccard scores 1/3, 2/3, 1 for the query. -/
def c6State : SubjectIndex :=
  buildFromSubjects
    [⟨"s1", "n1", ["a"], ["a"], []⟩,
     ⟨"s2", "n2", ["a", "b"], ["a", "b"], []⟩,
     ⟨"s3", "n3", ["a", "b", "c"], ["a", "b", "c"], []⟩]
    initIndex

/-- C5 counterexample fixture: overwriting re-add leaves a stale posting for `"a"`. -/
def c5StaleState : SubjectIndex :=
  addSubject ⟨"s", "n", ["b"], ["b"], []⟩
    (addSubject ⟨"s", "n", ["a"], ["a"], []⟩ initIndex)

/-- C10 counterexample fixture: the stale posting `"cats"` only partially
matches the stored keywords `["cat"]`. -/
def c10StaleState : SubjectIndex :=
  addSubject ⟨"s", "n", ["cat"], ["cat"], []⟩
    (addSubject ⟨"s", "n", ["cats"], ["cats"], []⟩ initIndex)

/-! ## Association-list map lemmas -/

theorem mapGet_set_self {α : Type} (m : List (String × α)) (k : String) (v : α) :
    mapGet (mapSet m k v) k = some v := by
  induction m with
  | nil => simp [mapSet, mapGet]
  | cons p rest ih =>
      obtain ⟨k', v'⟩ := p
      by_cases h : k' = k
      · simp [mapSet, h, mapGet]
      · simp [mapSet, h, mapGet, ih]

theorem mapGet_set_ne {α : Type} (m : List (String × α)) (k k' : String) (v : α)
    (h : ¬ k' = k) : mapGet (mapSet m k v) k' = mapGet m k' := by
  have hkk : ¬ k = k' := fun hh => h hh.symm
  induction m with
  | nil => simp [mapSet, mapGet, hkk]
  | cons p rest ih =>
      obtain ⟨k'', v''⟩ := p
      by_cases h2 : k'' = k
      · subst h2
        simp [mapSet, mapGet, hkk]
      · by_cases h3 : k'' = k'
        · subst h3
          simp [mapSet, h2, mapGet]
        · simp [mapSet, h2, mapGet, h3, ih]

theorem mapGet_delete_self {α : Type} (m : List (String × α)) (k : String) :
    mapGet (mapDelete m k) k = none := by
  induction m with
  | nil => simp [mapDelete, mapGet]
  | cons p rest ih =>
      obtain ⟨k', v⟩ := p
      by_cases h : k' = k
      · simpa [mapDelete, h] using ih
      · simpa [mapDelete, mapGet, h] using ih

theorem mapGet_delete_ne {α : Type} (m : List (String × α)) (k k' : String)
    (h : ¬ k' = k) : mapGet (mapDelete m k) k' = mapGet m k' := by
  induction m with
  | nil => simp [mapDelete, mapGet]
  | cons p rest ih =>
      obtain ⟨k'', v⟩ := p
      by_cases h2 : k'' = k
      · subst h2
        have : ¬ k'' = k' := fun hh => h hh.symm
        simpa [mapDelete, mapGet, this] using ih
      · by_cases h3 : k'' = k'
        · subst h3
          simp [mapDelete, mapGet, h2]
        · simpa [mapDelete, mapGet, h2, h3] using ih

theorem mapSet_self_of_get {α : Type} (m : List (String × α)) (k : String) (v : α)
    (h : mapGet m k = some v) : mapSet m k v = m := by
  induction m with
  | nil => simp [mapGet] at h
  | cons p rest ih =>
      obtain ⟨k', v'⟩ := p
      by_cases h2 : k' = k
      · subst h2
        simp [mapGet] at h
        simp [mapSet, h]
      · simp [mapGet, h2] at h
        simp [mapSet, h2, ih h]

theorem mapSet_mapSet {α : Type} (m : List (String × α)) (k : String) (v w : α) :
    mapSet (mapSet m k v) k w = mapSet m k w := by
  induction m with
  | nil => simp [mapSet]
  | cons p rest ih =>
      obtain ⟨k', v'⟩ := p
      by_cases h : k' = k
      · simp [mapSet, h]
      · simp [mapSet, h, ih]

theorem mapGet_eq_some_mem {α : Type} {m : List (String × α)} {k : String} {v : α}
    (h : mapGet m k = some v) : (k, v) ∈ m := by
  induction m with
  | nil => simp [mapGet] at h
  | cons p rest ih =>
      obtain ⟨k', v'⟩ := p
      by_cases h2 : k' = k
      · subst h2
        simp [mapGet] at h
        simp [h]
      · simp [mapGet, h2] at h
        simp [ih h]

/-! ## JS set lemmas -/

theorem mem_jsSetAdd {l : List String} {x y : String} :
    x ∈ jsSetAdd l y ↔ x ∈ l ∨ x = y := by
  by_cases h : y ∈ l
  · simp only [jsSetAdd, if_pos h]
    constructor
    · exact Or.inl
    · rintro (hx | rfl)
      · exact hx
      · exact h
  · simp [jsSetAdd, if_neg h]

theorem jsSetAdd_of_mem {l : List String} {y : String} (h : y ∈ l) :
    jsSetAdd l y = l := by
  simp [jsSetAdd, h]

theorem nodup_jsSetAdd {l : List String} (h : l.Nodup) (y : String) :
    (jsSetAdd l y).Nodup := by
  by_cases hy : y ∈ l
  · simpa [jsSetAdd, hy] using h
  · rw [jsSetAdd, if_neg hy]
    simp only [List.nodup_append, List.nodup_singleton, List.disjoint_singleton]
    exact ⟨h, trivial, hy⟩

theorem mem_foldl_jsSetAdd (l : List String) (acc : List String) (x : String) :
    x ∈ l.foldl jsSetAdd acc ↔ x ∈ acc ∨ x ∈ l := by
  induction l generalizing acc with
  | nil => simp
  | cons y ys ih =>
      simp only [List.foldl_cons, ih, mem_jsSetAdd, List.mem_cons]
      tauto

theorem nodup_foldl_jsSetAdd (l : List String) (acc : List String) (h : acc.Nodup) :
    (l.foldl jsSetAdd acc).Nodup := by
  induction l generalizing acc with
  | nil => simpa
  | cons y ys ih => exact ih _ (nodup_jsSetAdd h y)

theorem mem_jsSetOf {l : List String} {x : String} : x ∈ jsSetOf l ↔ x ∈ l := by
  simp [jsSetOf, mem_foldl_jsSetAdd]

theorem nodup_jsSetOf (l : List String) : (jsSetOf l).Nodup :=
  nodup_foldl_jsSetAdd l [] List.nodup_nil

theorem toFinset_jsSetOf (l : List String) : (jsSetOf l).toFinset = l.toFinset := by
  ext x
  simp [mem_jsSetOf]

/-! ## Posting-list step and fold lemmas -/

theorem mapGet_postingAdd_self (id : String) (m : List (String × List String)) (kw : String) :
    mapGet (postingAdd id m kw) kw = addEff id (mapGet m kw) := by
  cases h : mapGet m kw with
  | none => simp [postingAdd, h, addEff, mapGet_set_self]
  | some set => simp [postingAdd, h, addEff, mapGet_set_self]

theorem mapGet_postingAdd_ne (id : String) (m : List (String × List String)) (kw kw' : String)
    (h : ¬ kw' = kw) : mapGet (postingAdd id m kw) kw' = mapGet m kw' := by
  cases h2 : mapGet m kw with
  | none => simp [postingAdd, h2, mapGet_set_ne _ _ _ _ h]
  | some set => simp [postingAdd, h2, mapGet_set_ne _ _ _ _ h]

theorem mapGet_postingRemove_self (id : String) (m : List (String × List String)) (kw : String) :
    mapGet (postingRemove id m kw) kw = removeEff id (mapGet m kw) := by
  cases h : mapGet m kw with
  | none => simp [postingRemove, h, removeEff]
  | some set =>
      simp only [postingRemove, h, removeEff]
      by_cases h2 : (set.filter (fun y => ¬ y = id)).length = 0
      · rw [if_pos h2, if_pos h2, mapGet_delete_self]
      · rw [if_neg h2, if_neg h2, mapGet_set_self]

theorem mapGet_postingRemove_ne (id : String) (m : List (String × List String)) (kw kw' : String)
    (h : ¬ kw' = kw) : mapGet (postingRemove id m kw) kw' = mapGet m kw' := by
  cases h2 : mapGet m kw with
  | none => simp [postingRemove, h2]
  | some set =>
      simp only [postingRemove, h2]
      by_cases h3 : (set.filter (fun y => ¬ y = id)).length = 0
      · rw [if_pos h3, mapGet_delete_ne _ _ _ h]
      · rw [if_neg h3, mapGet_set_ne _ _ _ _ h]

theorem addEff_idem (id : String) (o : Option (List String)) :
    addEff id (addEff id o) = addEff id o := by
  simp only [addEff, Option.getD_some]
  rw [jsSetAdd_of_mem (mem_jsSetAdd.mpr (Or.inr rfl))]

theorem removeEff_idem (id : String) (o : Option (List String)) :
    removeEff id (removeEff id o) = removeEff id o := by
  cases o with
  | none => rfl
  | some set =>
      show removeEff id (removeEff id (some set)) = removeEff id (some set)
      simp only [removeEff]
      by_cases h : (set.filter (fun y => ¬ y = id)).length = 0
      · rw [if_pos h]
      · rw [if_neg h]
        simp only [removeEff]
        have hcollapse : (set.filter (fun y => ¬ y = id)).filter (fun y => ¬ y = id)
            = set.filter (fun y => ¬ y = id) := by
          rw [List.filter_filter]
          simp only [Bool.and_self]
        rw [hcollapse, if_neg h]

/-- Generic pointwise description of a fold of per-keyword posting steps. -/
theorem foldl_posting_get (step : List (String × List String) → String → List (String × List String))
    (eff : Option (List String) → Option (List String))
    (hself : ∀ m kw, mapGet (step m kw) kw = eff (mapGet m kw))
    (hframe : ∀ m kw kw', ¬ kw' = kw → mapGet (step m kw) kw' = mapGet m kw')
    (hidem : ∀ o, eff (eff o) = eff o)
    (l : List String) (m : List (String × List String)) (kw : String) :
    mapGet (l.foldl step m) kw = if kw ∈ l then eff (mapGet m kw) else mapGet m kw := by
  induction l generalizing m with
  | nil => simp
  | cons a t ih =>
      simp only [List.foldl_cons]
      rw [ih]
      by_cases hh : kw = a
      · subst hh
        have hcons : kw ∈ kw :: t := List.mem_cons_self kw t
        by_cases ht : kw ∈ t
        · rw [if_pos ht, if_pos hcons, hself, hidem]
        · rw [if_neg ht, if_pos hcons, hself]
      · have hmem : (kw ∈ a :: t) ↔ (kw ∈ t) := by simp [List.mem_cons, hh]
        rw [hframe _ _ _ hh]
        by_cases ht : kw ∈ t
        · rw [if_pos ht, if_pos (hmem.mpr ht)]
        · rw [if_neg ht, if_neg (fun hc => ht (hmem.mp hc))]

theorem foldl_postingAdd_get (id : String) (l : List String)
    (m : List (String × List String)) (kw : String) :
    mapGet (l.foldl (postingAdd id) m) kw =
      if kw ∈ l then addEff id (mapGet m kw) else mapGet m kw :=
  foldl_posting_get (postingAdd id) (addEff id) (mapGet_postingAdd_self id)
    (mapGet_postingAdd_ne id) (addEff_idem id) l m kw

theorem foldl_postingRemove_get (id : String) (l : List String)
    (m : List (String × List String)) (kw : String) :
    mapGet (l.foldl (postingRemove id) m) kw =
      if kw ∈ l then removeEff id (mapGet m kw) else mapGet m kw :=
  foldl_posting_get (postingRemove id) (removeEff id) (mapGet_postingRemove_self id)
    (mapGet_postingRemove_ne id) (removeEff_idem id) l m kw

/-! ## Pointwise descriptions of the index mutations -/

theorem addSubject_subjects_get (e : IndexEntry) (s : SubjectIndex) (k : String) :
    mapGet (addSubject e s).subjects k =
      if k = e.idHash then some e else mapGet s.subjects k := by
  by_cases h : k = e.idHash
  · subst h
    simp [addSubject, mapGet_set_self]
  · simp [addSubject, h, mapGet_set_ne _ _ _ _ h]

theorem addSubject_ktos_get (e : IndexEntry) (s : SubjectIndex) (kw : String) :
    mapGet (addSubject e s).keywordToSubjects kw =
      if kw ∈ e.normalizedKeywords then addEff e.idHash (mapGet s.keywordToSubjects kw)
      else mapGet s.keywordToSubjects kw := by
  simp [addSubject, foldl_postingAdd_get]

theorem id_mem_addEff (id : String) (o : Option (List String)) :
    ∃ p, addEff id o = some p ∧ id ∈ p :=
  ⟨jsSetAdd (o.getD []) id, rfl, mem_jsSetAdd.mpr (Or.inr rfl)⟩

theorem mem_addEff_of_mem {id x : String} {p : List String} {o : Option (List String)}
    (ho : o = some p) (hx : x ∈ p) : ∃ q, addEff id o = some q ∧ x ∈ q := by
  subst ho
  exact ⟨jsSetAdd p id, rfl, mem_jsSetAdd.mpr (Or.inl hx)⟩

theorem not_mem_removeEff (id : String) (o : Option (List String)) :
    ∀ p, removeEff id o = some p → ¬ id ∈ p := by
  intro p hp
  cases o with
  | none => simp [removeEff] at hp
  | some set =>
      simp only [removeEff] at hp
      by_cases h : (set.filter (fun y => ¬ y = id)).length = 0
      · rw [if_pos h] at hp
        simp at hp
      · rw [if_neg h] at hp
        injection hp with hp2
        subst hp2
        intro hmem
        simp at hmem

theorem mem_removeEff_of_mem {id x : String} {p : List String} {o : Option (List String)}
    (ho : o = some p) (hx : x ∈ p) (hne : ¬ x = id) :
    ∃ q, removeEff id o = some q ∧ x ∈ q := by
  subst ho
  have hmem : x ∈ p.filter (fun y => ¬ y = id) := by
    simp only [List.mem_filter, decide_eq_true_eq]
    exact ⟨hx, hne⟩
  have hlen : ¬ (p.filter (fun y => ¬ y = id)).length = 0 := by
    intro h0
    rw [List.length_eq_zero] at h0
    rw [h0] at hmem
    simp at hmem
  refine ⟨p.filter (fun y => ¬ y = id), ?_, hmem⟩
  simp only [removeEff]
  rw [if_neg hlen]

theorem removeSubject_of_not_found {id : String} {s : SubjectIndex}
    (h : mapGet s.subjects id = none) : removeSubject id s = (false, s) := by
  simp [removeSubject, h]

theorem removeSubject_fst {id : String} {s : SubjectIndex} {entry : IndexEntry}
    (h : mapGet s.subjects id = some entry) : (removeSubject id s).1 = true := by
  simp [removeSubject, h]

theorem removeSubject_subjects_get {id : String} {s : SubjectIndex} {entry : IndexEntry}
    (h : mapGet s.subjects id = some entry) (k : String) :
    mapGet (removeSubject id s).2.subjects k =
      if k = id then none else mapGet s.subjects k := by
  by_cases h2 : k = id
  · subst h2
    simp [removeSubject, h, mapGet_delete_self]
  · simp [removeSubject, h, h2, mapGet_delete_ne _ _ _ h2]

theorem removeSubject_ktos_get {id : String} {s : SubjectIndex} {entry : IndexEntry}
    (h : mapGet s.subjects id = some entry) (kw : String) :
    mapGet (removeSubject id s).2.keywordToSubjects kw =
      if kw ∈ entry.normalizedKeywords then removeEff id (mapGet s.keywordToSubjects kw)
      else mapGet s.keywordToSubjects kw := by
  simp [removeSubject, h, foldl_postingRemove_get]

theorem updateSubject_of_not_found {e : IndexEntry} {s : SubjectIndex}
    (h : mapGet s.subjects e.idHash = none) : updateSubject e s = addSubject e s := by
  simp [updateSubject, h]

theorem updateSubject_subjects_get (e : IndexEntry) (s : SubjectIndex) (k : String) :
    mapGet (updateSubject e s).subjects k =
      if k = e.idHash then some e else mapGet s.subjects k := by
  cases h : mapGet s.subjects e.idHash with
  | none => rw [updateSubject_of_not_found h, addSubject_subjects_get]
  | some old =>
      by_cases h2 : k = e.idHash
      · subst h2
        simp [updateSubject, h, mapGet_set_self]
      · simp [updateSubject, h, h2, mapGet_set_ne _ _ _ _ h2]

theorem mem_diffKeywords {kw : String} {l1 l2 : List String} :
    kw ∈ (jsSetOf l1).filter (fun kw => ¬ kw ∈ l2) ↔ kw ∈ l1 ∧ ¬ kw ∈ l2 := by
  simp [List.mem_filter, mem_jsSetOf]

theorem updateSubject_ktos_get {e : IndexEntry} {s : SubjectIndex} {old : IndexEntry}
    (hget : mapGet s.subjects e.idHash = some old) (kw : String) :
    mapGet (updateSubject e s).keywordToSubjects kw =
      if kw ∈ e.normalizedKeywords then
        (if kw ∈ old.normalizedKeywords then mapGet s.keywordToSubjects kw
         else addEff e.idHash (mapGet s.keywordToSubjects kw))
      else
        (if kw ∈ old.normalizedKeywords then removeEff e.idHash (mapGet s.keywordToSubjects kw)
         else mapGet s.keywordToSubjects kw) := by
  have hunfold : (updateSubject e s).keywordToSubjects =
      ((jsSetOf e.normalizedKeywords).filter (fun kw => ¬ kw ∈ old.normalizedKeywords)).foldl
        (postingAdd e.idHash)
        (((jsSetOf old.normalizedKeywords).filter
            (fun kw => ¬ kw ∈ e.normalizedKeywords)).foldl
          (postingRemove e.idHash) s.keywordToSubjects) := by
    simp [updateSubject, hget]
  rw [hunfold, foldl_postingAdd_get, foldl_postingRemove_get]
  by_cases he : kw ∈ e.normalizedKeywords <;> by_cases ho : kw ∈ old.normalizedKeywords <;>
    simp [List.mem_filter, mem_jsSetOf, he, ho]

/-! ## Invariant preservation -/

theorem wf_init : Wf initIndex := by
  constructor
  · intro k e h
    simp [initIndex, mapGet] at h
  · intro k e h
    simp [initIndex, mapGet] at h

theorem wf_clear (s : SubjectIndex) : Wf (clearIndex s) := by
  constructor
  · intro k e h
    simp [clearIndex, mapGet] at h
  · intro k e h
    simp [clearIndex, mapGet] at h

theorem wf_add {s : SubjectIndex} (hwf : Wf s) (e : IndexEntry) : Wf (addSubject e s) := by
  obtain ⟨hkc, hpc⟩ := hwf
  constructor
  · intro k e' h
    rw [addSubject_subjects_get] at h
    by_cases h2 : k = e.idHash
    · rw [if_pos h2] at h
      injection h with h3
      rw [← h3, h2]
    · rw [if_neg h2] at h
      exact hkc k e' h
  · intro k e' h kw hkw
    rw [addSubject_subjects_get] at h
    unfold postingMem
    rw [addSubject_ktos_get]
    by_cases h2 : k = e.idHash
    · rw [if_pos h2] at h
      injection h with h3
      subst h3
      rw [if_pos hkw, h2]
      exact id_mem_addEff e.idHash _
    · rw [if_neg h2] at h
      obtain ⟨p, hp, hkp⟩ := hpc k e' h kw hkw
      by_cases h3 : kw ∈ e.normalizedKeywords
      · rw [if_pos h3]
        exact mem_addEff_of_mem hp hkp
      · rw [if_neg h3]
        exact ⟨p, hp, hkp⟩

theorem wf_remove {s : SubjectIndex} (hwf : Wf s) (id : String) :
    Wf (removeSubject id s).2 := by
  obtain ⟨hkc, hpc⟩ := hwf
  cases hget : mapGet s.subjects id with
  | none => rw [removeSubject_of_not_found hget]; exact ⟨hkc, hpc⟩
  | some entry =>
      constructor
      · intro k e' h
        rw [removeSubject_subjects_get hget] at h
        by_cases h2 : k = id
        · rw [if_pos h2] at h
          exact absurd h (by simp)
        · rw [if_neg h2] at h
          exact hkc k e' h
      · intro k e' h kw hkw
        rw [removeSubject_subjects_get hget] at h
        by_cases h2 : k = id
        · rw [if_pos h2] at h
          exact absurd h (by simp)
        · rw [if_neg h2] at h
          obtain ⟨p, hp, hkp⟩ := hpc k e' h kw hkw
          unfold postingMem
          rw [removeSubject_ktos_get hget]
          by_cases h3 : kw ∈ entry.normalizedKeywords
          · rw [if_pos h3]
            exact mem_removeEff_of_mem hp hkp h2
          · rw [if_neg h3]
            exact ⟨p, hp, hkp⟩

theorem wf_update {s : SubjectIndex} (hwf : Wf s) (e : IndexEntry) :
    Wf (updateSubject e s) := by
  cases hget : mapGet s.subjects e.idHash with
  | none => rw [updateSubject_of_not_found hget]; exact wf_add hwf e
  | some old =>
      obtain ⟨hkc, hpc⟩ := hwf
      constructor
      · intro k e' h
        rw [updateSubject_subjects_get] at h
        by_cases h2 : k = e.idHash
        · rw [if_pos h2] at h
          injection h with h3
          rw [← h3, h2]
        · rw [if_neg h2] at h
          exact hkc k e' h
      · intro k e' h kw hkw
        rw [updateSubject_subjects_get] at h
        unfold postingMem
        rw [updateSubject_ktos_get hget]
        by_cases h2 : k = e.idHash
        · rw [if_pos h2] at h
          injection h with h3
          subst h3
          rw [if_pos hkw, h2]
          by_cases ho : kw ∈ old.normalizedKeywords
          · rw [if_pos ho]
            obtain ⟨p, hp, hkp⟩ := hpc e.idHash old hget kw ho
            exact ⟨p, hp, hkp⟩
          · rw [if_neg ho]
            exact id_mem_addEff e.idHash _
        · rw [if_neg h2] at h
          obtain ⟨p, hp, hkp⟩ := hpc k e' h kw hkw
          by_cases h3 : kw ∈ e.normalizedKeywords
          · rw [if_pos h3]
            by_cases ho : kw ∈ old.normalizedKeywords
            · rw [if_pos ho]
              exact ⟨p, hp, hkp⟩
            · rw [if_neg ho]
              exact mem_addEff_of_mem hp hkp
          · rw [if_neg h3]
            by_cases ho : kw ∈ old.normalizedKeywords
            · rw [if_pos ho]
              have hne : ¬ k = e.idHash := h2
              exact mem_removeEff_of_mem hp hkp hne
            · rw [if_neg ho]
              exact ⟨p, hp, hkp⟩

theorem wf_build {s : SubjectIndex} (entries : List IndexEntry) :
    Wf (buildFromSubjects entries s) := by
  have hfold : ∀ (es : List IndexEntry) (t : SubjectIndex), Wf t →
      Wf (es.foldl (fun acc e => addSubject e acc) t) := by
    intro es
    induction es with
    | nil => intro t ht; simpa using ht
    | cons e es ih =>
        intro t ht
        exact ih _ (wf_add ht e)
  exact hfold entries (clearIndex s) (wf_clear s)

/-- Every state reachable through the public operations is well-formed. -/
theorem reachable_wf {s : SubjectIndex} (h : Reachable s) : Wf s := by
  induction h with
  | init => exact wf_init
  | add e _ ih => exact wf_add ih e
  | update e _ ih => exact wf_update ih e
  | remove id _ ih => exact wf_remove ih id
  | build es _ _ => exact wf_build es
  | clear _ _ => exact wf_clear _

/-! ## Query-path lemmas -/

theorem gatherCandidates_go (nq : List String) (ktos : List (String × List String))
    (acc : List String) (c : String) :
    (c ∈ nq.foldl
      (fun acc kw =>
        match mapGet ktos kw with
        | none => acc
        | some subs => subs.foldl jsSetAdd acc)
      acc) ↔
    c ∈ acc ∨ ∃ kw ∈ nq, ∃ p, mapGet ktos kw = some p ∧ c ∈ p := by
  induction nq generalizing acc with
  | nil => simp
  | cons a t ih =>
      simp only [List.foldl_cons]
      cases h : mapGet ktos a with
      | none =>
          rw [ih]
          constructor
          · rintro (hc | ⟨kw, hkw, p, hp, hcp⟩)
            · exact Or.inl hc
            · exact Or.inr ⟨kw, List.mem_cons_of_mem a hkw, p, hp, hcp⟩
          · rintro (hc | ⟨kw, hkw, p, hp, hcp⟩)
            · exact Or.inl hc
            · rcases List.mem_cons.mp hkw with rfl | hkw2
              · rw [h] at hp
                exact absurd hp (by simp)
              · exact Or.inr ⟨kw, hkw2, p, hp, hcp⟩
      | some subs =>
          rw [ih]
          rw [mem_foldl_jsSetAdd]
          constructor
          · rintro ((hc | hcs) | ⟨kw, hkw, p, hp, hcp⟩)
            · exact Or.inl hc
            · exact Or.inr ⟨a, List.mem_cons_self a t, subs, h, hcs⟩
            · exact Or.inr ⟨kw, List.mem_cons_of_mem a hkw, p, hp, hcp⟩
          · rintro (hc | ⟨kw, hkw, p, hp, hcp⟩)
            · exact Or.inl (Or.inl hc)
            · rcases List.mem_cons.mp hkw with rfl | hkw2
              · rw [h] at hp
                injection hp with hp2
                subst hp2
                exact Or.inl (Or.inr hcp)
              · exact Or.inr ⟨kw, hkw2, p, hp, hcp⟩

theorem mem_gatherCandidates {nq : List String} {ktos : List (String × List String)}
    {c : String} :
    c ∈ gatherCandidates nq ktos ↔
      ∃ kw ∈ nq, ∃ p, mapGet ktos kw = some p ∧ c ∈ p := by
  unfold gatherCandidates
  rw [gatherCandidates_go]
  simp

theorem findMatchingKeywords_eq_filter (ss subj : List String) :
    findMatchingKeywords ss subj = ss.filter (kwMatches subj) := by
  have hstep : ∀ (acc : List String) (kw : String),
      (if kw ∈ subj then acc ++ [kw]
       else if subj.any (fun subjectKw => jsIncludes subjectKw kw || jsIncludes kw subjectKw)
         then acc ++ [kw]
       else acc) =
      if kwMatches subj kw then acc ++ [kw] else acc := by
    intro acc kw
    by_cases h1 : kw ∈ subj
    · simp [h1, kwMatches]
    · by_cases h2 : subj.any (fun subjectKw => jsIncludes subjectKw kw || jsIncludes kw subjectKw)
      · simp [h1, h2, kwMatches]
      · simp [h1, h2, kwMatches]
  have hgo : ∀ (l acc : List String),
      l.foldl
        (fun acc kw =>
          if kw ∈ subj then acc ++ [kw]
          else if subj.any (fun subjectKw => jsIncludes subjectKw kw || jsIncludes kw subjectKw)
            then acc ++ [kw]
          else acc)
        acc = acc ++ l.filter (kwMatches subj) := by
    intro l
    induction l with
    | nil => simp
    | cons a t ih =>
        intro acc
        simp only [List.foldl_cons]
        rw [hstep]
        by_cases h : kwMatches subj a
        · rw [if_pos h, ih, List.filter_cons_of_pos h]
          simp
        · rw [if_neg h, ih, List.filter_cons_of_neg (by simpa using h)]
  unfold findMatchingKeywords
  rw [hgo]
  simp

theorem mem_findMatchingKeywords_of_exact {ss subj : List String} {kw : String}
    (hss : kw ∈ ss) (hsub : kw ∈ subj) : kw ∈ findMatchingKeywords ss subj := by
  rw [findMatchingKeywords_eq_filter]
  rw [List.mem_filter]
  exact ⟨hss, by simp [kwMatches, hsub]⟩

theorem mem_collectMatches {ss : List String} {s : SubjectIndex} {cands : List String}
    {m : SubjectMatch} :
    m ∈ collectMatches ss s cands ↔
      ∃ c ∈ cands, ∃ entry, mapGet s.subjects c = some entry ∧
        (findMatchingKeywords ss entry.normalizedKeywords).length > 0 ∧
        m = matchOfEntry ss entry := by
  have go : ∀ (cs : List String) (acc : List SubjectMatch),
      (m ∈ cs.foldl
        (fun acc idHashStr =>
          match mapGet s.subjects idHashStr with
          | none => acc
          | some entry =>
              if (findMatchingKeywords ss entry.normalizedKeywords).length > 0 then
                acc ++ [matchOfEntry ss entry]
              else acc)
        acc) ↔
      m ∈ acc ∨ ∃ c ∈ cs, ∃ entry, mapGet s.subjects c = some entry ∧
        (findMatchingKeywords ss entry.normalizedKeywords).length > 0 ∧
        m = matchOfEntry ss entry := by
    intro cs
    induction cs with
    | nil => simp
    | cons a t ih =>
        intro acc
        simp only [List.foldl_cons]
        cases h : mapGet s.subjects a with
        | none =>
            rw [ih]
            constructor
            · rintro (hc | ⟨c, hc, entry, he, hl, hm⟩)
              · exact Or.inl hc
              · exact Or.inr ⟨c, List.mem_cons_of_mem a hc, entry, he, hl, hm⟩
            · rintro (hc | ⟨c, hc, entry, he, hl, hm⟩)
              · exact Or.inl hc
              · rcases List.mem_cons.mp hc with rfl | hc2
                · rw [h] at he
                  exact absurd he (by simp)
                · exact Or.inr ⟨c, hc2, entry, he, hl, hm⟩
        | some entry =>
            dsimp only
            by_cases hl : (findMatchingKeywords ss entry.normalizedKeywords).length > 0
            · rw [if_pos hl, ih]
              constructor
              · rintro (hc | ⟨c, hc, entry', he, hl', hm⟩)
                · rcases List.mem_append.mp hc with hc2 | hc2
                  · exact Or.inl hc2
                  · refine Or.inr ⟨a, List.mem_cons_self a t, entry, h, hl, ?_⟩
                    simpa using hc2
                · exact Or.inr ⟨c, List.mem_cons_of_mem a hc, entry', he, hl', hm⟩
              · rintro (hc | ⟨c, hc, entry', he, hl', hm⟩)
                · exact Or.inl (List.mem_append.mpr (Or.inl hc))
                · rcases List.mem_cons.mp hc with rfl | hc2
                  · rw [h] at he
                    injection he with he2
                    subst he2
                    subst hm
                    exact Or.inl (List.mem_append.mpr (Or.inr (by simp)))
                  · exact Or.inr ⟨c, hc2, entry', he, hl', hm⟩
            · rw [if_neg hl, ih]
              constructor
              · rintro (hc | ⟨c, hc, entry', he, hl', hm⟩)
                · exact Or.inl hc
                · exact Or.inr ⟨c, List.mem_cons_of_mem a hc, entry', he, hl', hm⟩
              · rintro (hc | ⟨c, hc, entry', he, hl', hm⟩)
                · exact Or.inl hc
                · rcases List.mem_cons.mp hc with rfl | hc2
                  · rw [h] at he
                    injection he with he2
                    subst he2
                    exact absurd hl' hl
                  · exact Or.inr ⟨c, hc2, entry', he, hl', hm⟩
  unfold collectMatches
  rw [go]
  simp

theorem mem_insertDesc {m x : SubjectMatch} {l : List SubjectMatch} :
    x ∈ insertDesc m l ↔ x = m ∨ x ∈ l := by
  induction l with
  | nil => simp [insertDesc]
  | cons n ns ih =>
      simp only [insertDesc]
      by_cases h : n.relevanceScore ≤ m.relevanceScore
      · simp [h]
      · simp only [h, if_false, List.mem_cons, ih]
        tauto

theorem mem_sortDesc {x : SubjectMatch} {l : List SubjectMatch} :
    x ∈ sortDesc l ↔ x ∈ l := by
  induction l with
  | nil => simp [sortDesc]
  | cons n ns ih =>
      simp only [sortDesc, mem_insertDesc, ih, List.mem_cons]

theorem pairwise_insertDesc {m : SubjectMatch} {l : List SubjectMatch}
    (h : l.Pairwise (fun a b => b.relevanceScore ≤ a.relevanceScore)) :
    (insertDesc m l).Pairwise (fun a b => b.relevanceScore ≤ a.relevanceScore) := by
  induction l with
  | nil => simp [insertDesc]
  | cons n ns ih =>
      simp only [insertDesc]
      rcases List.pairwise_cons.mp h with ⟨hn, hns⟩
      by_cases h2 : n.relevanceScore ≤ m.relevanceScore
      · rw [if_pos h2]
        refine List.pairwise_cons.mpr ⟨?_, h⟩
        intro x hx
        rcases List.mem_cons.mp hx with rfl | hx2
        · exact h2
        · exact le_trans (hn x hx2) h2
      · rw [if_neg h2]
        refine List.pairwise_cons.mpr ⟨?_, ih hns⟩
        intro x hx
        rcases mem_insertDesc.mp hx with rfl | hx2
        · exact le_of_lt (lt_of_not_le h2)
        · exact hn x hx2

theorem pairwise_sortDesc (l : List SubjectMatch) :
    (sortDesc l).Pairwise (fun a b => b.relevanceScore ≤ a.relevanceScore) := by
  induction l with
  | nil => simp [sortDesc]
  | cons n ns ih => exact pairwise_insertDesc ih

theorem mem_findByKeywords {q : List String} {s : SubjectIndex} {m : SubjectMatch} :
    m ∈ findByKeywords q s ↔
      ∃ c ∈ gatherCandidates (normalizeKeywords q) s.keywordToSubjects,
        ∃ entry, mapGet s.subjects c = some entry ∧
          (findMatchingKeywords (jsSetOf (normalizeKeywords q))
            entry.normalizedKeywords).length > 0 ∧
          m = matchOfEntry (jsSetOf (normalizeKeywords q)) entry := by
  unfold findByKeywords
  rw [mem_sortDesc, mem_collectMatches]

/-! ## Claim C1 -/

theorem keepWordOrSpace_eq_filter (l : List Char) :
    keepWordOrSpace l = l.filter (fun c => isWordChar c || isJsSpace c) := by
  induction l with
  | nil => rfl
  | cons c cs ih =>
      cases h : (isWordChar c || isJsSpace c) with
      | true => simp [keepWordOrSpace, h, ih]
      | false => simp [keepWordOrSpace, h, ih]

/--
C1, counterexample.  The claim asserts that the normalizer removes every
character that is not a letter, digit, or whitespace and that
`normalize("Project-Lama!!") = "project lama"`.  The source regex
`[^\w\s]` keeps underscores, and stripping the hyphen does not insert a
space: the code yields `"projectlama"`, and keeps `"a_b"` intact while the
claimed character policy (`normalizeSpecC1`) would give `"ab"`.
-/
theorem c1_counterexample :
    normalizeKeyword "Project-Lama!!" = "projectlama" ∧
    ¬ ("projectlama" = "project lama") ∧
    normalizeKeyword "a_b" = "a_b" ∧
    normalizeSpecC1 "a_b" = "ab" := by
  refine ⟨by decide, by decide, by decide, by decide⟩

/--
C1, amended.  For every raw string the normalizer lowercases, removes every
character that is not an ASCII letter, digit, underscore, or whitespace, and
trims leading/trailing whitespace; `normalize("Project-Lama!!")` evaluates to
`"projectlama"` while `normalize("project lama")` evaluates to
`"project lama"`.
-/
theorem c1_amended_normalizer :
    (∀ s, normalizeKeyword s = normalizeAmendedC1 s) ∧
    normalizeKeyword "Project-Lama!!" = "projectlama" ∧
    normalizeKeyword "project lama" = "project lama" := by
  refine ⟨fun s => ?_, by decide, by decide⟩
  rw [normalizeKeyword, normalizeAmendedC1, keepWordOrSpace_eq_filter]

/-! ## Claim C3 -/

/--
C3.  The relevance score of the index is Jaccard similarity: for all finite
string sets `A` and `B` (duplicate-free lists), `calculateJaccardSimilarity`
equals `|A ∩ B| / |A ∪ B|` (which is `0` when both sets are empty, rational
division by zero being zero); the claim's concrete cases evaluate to `2/3`,
`0`, and `1`.
-/
theorem c3_jaccard :
    (∀ A B : List String, A.Nodup → B.Nodup →
      calculateJaccardSimilarity A B =
        ((A.toFinset ∩ B.toFinset).card : ℚ) / ((A.toFinset ∪ B.toFinset).card : ℚ)) ∧
    calculateJaccardSimilarity [] [] = 0 ∧
    calculateJaccardSimilarity ["a", "b"] ["a", "b", "c"] = 2 / 3 ∧
    calculateJaccardSimilarity ["a", "b"] ["c", "d"] = 0 ∧
    calculateJaccardSimilarity ["a", "b"] ["a", "b"] = 1 := by
  have main : ∀ A B : List String, A.Nodup → B.Nodup →
      calculateJaccardSimilarity A B =
        ((A.toFinset ∩ B.toFinset).card : ℚ) / ((A.toFinset ∪ B.toFinset).card : ℚ) := by
    intro A B hA hB
    have hI : (A.filter (fun x => x ∈ B)).length = (A.toFinset ∩ B.toFinset).card := by
      have hnd : (A.filter (fun x => x ∈ B)).Nodup := hA.filter _
      rw [← List.toFinset_card_of_nodup hnd]
      congr 1
      ext x
      simp [List.mem_filter]
    have hU : (jsSetOf (A ++ B)).length = (A.toFinset ∪ B.toFinset).card := by
      rw [← List.toFinset_card_of_nodup (nodup_jsSetOf (A ++ B)), toFinset_jsSetOf,
        List.toFinset_append]
    simp only [calculateJaccardSimilarity]
    by_cases h0 : (jsSetOf (A ++ B)).length = 0
    · rw [if_pos h0]
      have hc : (A.toFinset ∪ B.toFinset).card = 0 := by rw [← hU]; exact h0
      rw [hc]
      simp
    · rw [if_neg h0, hI, hU]
  refine ⟨main, by rfl, by rfl, ?_, ?_⟩
  · rw [main ["a", "b"] ["c", "d"] (by decide) (by decide)]
    rw [show ((["a", "b"] : List String).toFinset ∩
      (["c", "d"] : List String).toFinset).card = 0 from by decide]
    norm_num
  · rw [main ["a", "b"] ["a", "b"] (by decide) (by decide)]
    rw [show ((["a", "b"] : List String).toFinset ∩
        (["a", "b"] : List String).toFinset).card = 2 from by decide,
      show ((["a", "b"] : List String).toFinset ∪
        (["a", "b"] : List String).toFinset).card = 2 from by decide]
    norm_num

/-- C3 witness at the claim's own concrete input. -/
theorem c3_jaccard_witness :
    (["a", "b"] : List String).Nodup ∧ (["a", "b", "c"] : List String).Nodup ∧
    calculateJaccardSimilarity ["a", "b"] ["a", "b", "c"] =
      (((["a", "b"] : List String).toFinset ∩ (["a", "b", "c"] : List String).toFinset).card : ℚ) /
      (((["a", "b"] : List String).toFinset ∪ (["a", "b", "c"] : List String).toFinset).card : ℚ) :=
  ⟨by decide, by decide, c3_jaccard.1 ["a", "b"] ["a", "b", "c"] (by decide) (by decide)⟩

/-! ## Claim C7 -/

theorem foldl_postingAdd_of_mem (id : String) (l : List String)
    (m : List (String × List String))
    (h : ∀ kw ∈ l, ∃ set, mapGet m kw = some set ∧ id ∈ set) :
    l.foldl (postingAdd id) m = m := by
  induction l with
  | nil => rfl
  | cons a t ih =>
      obtain ⟨set, hget, hmem⟩ := h a (List.mem_cons_self a t)
      have hstep : postingAdd id m a = m := by
        simp only [postingAdd, hget]
        rw [jsSetAdd_of_mem hmem, mapSet_self_of_get _ _ _ hget]
      rw [List.foldl_cons, hstep]
      exact ih (fun kw hkw => h kw (List.mem_cons_of_mem a hkw))

/--
C7.  `addSubject` is idempotent: adding the same entry twice yields a state
literally identical to adding it once (stored entries and posting lists).
-/
theorem c7_addSubject_idempotent (s : SubjectIndex) (e : IndexEntry) :
    addSubject e (addSubject e s) = addSubject e s := by
  have hpost : ∀ kw ∈ e.normalizedKeywords,
      ∃ set, mapGet (addSubject e s).keywordToSubjects kw = some set ∧ e.idHash ∈ set := by
    intro kw hkw
    rw [addSubject_ktos_get, if_pos hkw]
    exact id_mem_addEff e.idHash _
  have hk : (addSubject e (addSubject e s)).keywordToSubjects =
      (addSubject e s).keywordToSubjects :=
    foldl_postingAdd_of_mem e.idHash _ _ hpost
  have hs : (addSubject e (addSubject e s)).subjects = (addSubject e s).subjects :=
    mapSet_mapSet s.subjects e.idHash e e
  have heta : addSubject e (addSubject e s) =
      SubjectIndex.mk (addSubject e (addSubject e s)).keywordToSubjects
        (addSubject e (addSubject e s)).subjects := rfl
  rw [heta, hk, hs]

/-! ## Claim C9 -/

/--
C9.  `addSubject` never removes a subject identifier from any posting list and
never deletes a posting list: every posting-list membership and every existing
posting list survives an `addSubject`, including overwrites that drop keywords.
-/
theorem c9_addSubject_frame :
    ∀ (s : SubjectIndex) (e : IndexEntry) (kw id : String),
      (postingMem s kw id → postingMem (addSubject e s) kw id) ∧
      ((mapGet s.keywordToSubjects kw).isSome →
        (mapGet (addSubject e s).keywordToSubjects kw).isSome) := by
  intro s e kw id
  constructor
  · rintro ⟨p, hp, hmem⟩
    unfold postingMem
    rw [addSubject_ktos_get]
    by_cases h : kw ∈ e.normalizedKeywords
    · rw [if_pos h]
      exact mem_addEff_of_mem hp hmem
    · rw [if_neg h]
      exact ⟨p, hp, hmem⟩
  · intro hs
    rw [addSubject_ktos_get]
    by_cases h : kw ∈ e.normalizedKeywords
    · rw [if_pos h]
      simp [addEff]
    · rw [if_neg h]
      exact hs

/-- C9 witness: the stale posting for `"a"` survives the overwriting re-add. -/
theorem c9_addSubject_frame_witness :
    postingMem
      (addSubject ⟨"s1", "n1", ["b"], ["b"], []⟩
        (addSubject ⟨"s1", "n1", ["a"], ["a"], []⟩ initIndex)) "a" "s1" :=
  (c9_addSubject_frame (addSubject ⟨"s1", "n1", ["a"], ["a"], []⟩ initIndex)
    ⟨"s1", "n1", ["b"], ["b"], []⟩ "a" "s1").1 ⟨["s1"], by decide, by decide⟩

/-! ## Claim C5 -/

/--
C5, counterexample.  The claim says that after a successful `removeSubject(id)`
no posting list contains `id`.  On the reachable state built by re-adding the
subject under the same id with different keywords (`c5StaleState`),
`removeSubject` returns `true` and deletes the entry, yet the stale posting
list for `"a"` still contains `"s"`.
-/
theorem c5_counterexample :
    (removeSubject "s" c5StaleState).1 = true ∧
    mapGet (removeSubject "s" c5StaleState).2.keywordToSubjects "a" = some ["s"] ∧
    mapGet (removeSubject "s" c5StaleState).2.subjects "s" = none ∧
    Reachable c5StaleState := by
  refine ⟨by decide, by decide, by decide, ?_⟩
  exact Reachable.add _ (Reachable.add _ Reachable.init)

/--
C5, amended.  `removeSubject(id)` returns `false` and leaves the state
unchanged when no entry is stored under `id`.  Otherwise it returns `true` and
afterwards: the stored entry is gone; `id` is absent from the posting list of
every keyword in the removed entry's normalized keyword set; those posting
lists that thereby became empty (contained only `id`) are deleted entirely;
and posting lists of keywords outside the removed entry's keyword set are
unchanged — they may still contain `id` when an earlier overwriting
`addSubject` left a stale reference.
-/
theorem c5_removal :
    ∀ (s : SubjectIndex) (id : String),
      (mapGet s.subjects id = none → removeSubject id s = (false, s)) ∧
      (∀ entry, mapGet s.subjects id = some entry →
        (removeSubject id s).1 = true ∧
        getSubject id (removeSubject id s).2 = none ∧
        (∀ kw ∈ entry.normalizedKeywords, ¬ postingMem (removeSubject id s).2 kw id) ∧
        (∀ kw ∈ entry.normalizedKeywords, ∀ p, mapGet s.keywordToSubjects kw = some p →
          (∀ x ∈ p, x = id) → mapGet (removeSubject id s).2.keywordToSubjects kw = none) ∧
        (∀ kw, ¬ kw ∈ entry.normalizedKeywords →
          mapGet (removeSubject id s).2.keywordToSubjects kw =
            mapGet s.keywordToSubjects kw)) := by
  intro s id
  refine ⟨removeSubject_of_not_found, fun entry hget => ?_⟩
  refine ⟨removeSubject_fst hget, ?_, ?_, ?_, ?_⟩
  · unfold getSubject
    rw [removeSubject_subjects_get hget, if_pos rfl]
  · intro kw hkw
    rintro ⟨p, hp, hmem⟩
    rw [removeSubject_ktos_get hget, if_pos hkw] at hp
    exact not_mem_removeEff id _ p hp hmem
  · intro kw hkw p hp hall
    rw [removeSubject_ktos_get hget, if_pos hkw, hp]
    have hfil : p.filter (fun y => ¬ y = id) = [] := by
      rw [List.filter_eq_nil_iff]
      intro a ha
      simp [hall a ha]
    simp only [removeEff, hfil]
    rfl
  · intro kw hkw
    rw [removeSubject_ktos_get hget, if_neg hkw]

/-- C5 witness: removal of a known subject on a one-subject index. -/
theorem c5_removal_witness :
    ¬ postingMem
      (removeSubject "s1" (addSubject ⟨"s1", "n1", ["a"], ["a"], []⟩ initIndex)).2 "a" "s1" :=
  ((c5_removal (addSubject ⟨"s1", "n1", ["a"], ["a"], []⟩ initIndex) "s1").2
    ⟨"s1", "n1", ["a"], ["a"], []⟩ (by decide)).2.2.1 "a" (by decide)

/-! ## Claim C6 -/

theorem jaccard_eval (A B : List String) (i u : Nat)
    (hi : (A.filter (fun x => x ∈ B)).length = i)
    (hu : (jsSetOf (A ++ B)).length = u) :
    calculateJaccardSimilarity A B = if u = 0 then 0 else (i : ℚ) / (u : ℚ) := by
  simp only [calculateJaccardSimilarity, hi, hu]

/--
C6.  `findByKeywords` always returns matches in non-increasing
`relevanceScore` order; `findSimilar` is exactly `findByKeywords` truncated to
`limit` entries, with `limit` defaulting to 10; in the three-candidate fixture
the query returns scores `[1, 2/3, 1/3]` and `findSimilar` with limit 1
returns exactly the highest-scoring match.
-/
theorem c6_ranking_and_limit :
    (∀ (q : List String) (s : SubjectIndex),
      (findByKeywords q s).Pairwise (fun a b => b.relevanceScore ≤ a.relevanceScore)) ∧
    (∀ (q : List String) (s : SubjectIndex) (limit : Nat),
      findSimilar q s limit = (findByKeywords q s).take limit) ∧
    (∀ (q : List String) (s : SubjectIndex), findSimilar q s = (findByKeywords q s).take 10) ∧
    findByKeywords ["a", "b", "c"] c6State =
      [⟨"s3", "n3", ["a", "b", "c"], ["a", "b", "c"], 1⟩,
       ⟨"s2", "n2", ["a", "b"], ["a", "b"], 2 / 3⟩,
       ⟨"s1", "n1", ["a"], ["a"], 1 / 3⟩] ∧
    findSimilar ["a", "b", "c"] c6State 1 =
      [⟨"s3", "n3", ["a", "b", "c"], ["a", "b", "c"], 1⟩] := by
  have hconc : findByKeywords ["a", "b", "c"] c6State =
      [⟨"s3", "n3", ["a", "b", "c"], ["a", "b", "c"], 1⟩,
       ⟨"s2", "n2", ["a", "b"], ["a", "b"], 2 / 3⟩,
       ⟨"s1", "n1", ["a"], ["a"], 1 / 3⟩] := by
    have h1 : normalizeKeywords ["a", "b", "c"] = ["a", "b", "c"] := by decide
    have h2 : gatherCandidates ["a", "b", "c"] c6State.keywordToSubjects =
        ["s1", "s2", "s3"] := by decide
    have h3 : jsSetOf ["a", "b", "c"] = ["a", "b", "c"] := by decide
    have h4 : mapGet c6State.subjects "s1" = some ⟨"s1", "n1", ["a"], ["a"], []⟩ := by decide
    have h5 : mapGet c6State.subjects "s2" =
        some ⟨"s2", "n2", ["a", "b"], ["a", "b"], []⟩ := by decide
    have h6 : mapGet c6State.subjects "s3" =
        some ⟨"s3", "n3", ["a", "b", "c"], ["a", "b", "c"], []⟩ := by decide
    have h7 : findMatchingKeywords ["a", "b", "c"] ["a"] = ["a"] := by decide
    have h8 : findMatchingKeywords ["a", "b", "c"] ["a", "b"] = ["a", "b"] := by decide
    have h9 : findMatchingKeywords ["a", "b", "c"] ["a", "b", "c"] =
        ["a", "b", "c"] := by decide
    have j1 : calculateJaccardSimilarity ["a", "b", "c"] ["a"] = 1 / 3 := by
      rw [jaccard_eval _ _ 1 3 (by decide) (by decide)]
      norm_num
    have j2 : calculateJaccardSimilarity ["a", "b", "c"] ["a", "b"] = 2 / 3 := by
      rw [jaccard_eval _ _ 2 3 (by decide) (by decide)]
      norm_num
    have j3 : calculateJaccardSimilarity ["a", "b", "c"] ["a", "b", "c"] = 1 := by
      rw [jaccard_eval _ _ 3 3 (by decide) (by decide)]
      norm_num
    show sortDesc (collectMatches (jsSetOf (normalizeKeywords ["a", "b", "c"])) c6State
      (gatherCandidates (normalizeKeywords ["a", "b", "c"]) c6State.keywordToSubjects)) = _
    rw [h1, h2, h3]
    norm_num [collectMatches, matchOfEntry, h4, h5, h6, h7, h8, h9, j1, j2, j3,
      sortDesc, insertDesc]
  refine ⟨fun q s => pairwise_sortDesc _, fun _ _ _ => rfl, fun _ _ => rfl, hconc, ?_⟩
  show (findByKeywords ["a", "b", "c"] c6State).take 1 = _
  rw [hconc]
  rfl

/-! ## Claim C8 -/

/--
C8.  Batch extraction fails before touching any record when memories are not
enabled for the topic or the keyword extractor / memory store collaborator is
missing (the same error for every record list); with all preconditions met it
returns the extracted subjects together with the total message count and the
elapsed time; and a record whose extraction throws is skipped while every
remaining record is still processed (the batch result is the one obtained by
deleting just that record, the batch size staying fixed).
-/
theorem c8_error_handling :
    (∀ (topicId : String) (hasAnalyzer hasMemoryPlan : Bool) (minConf : ℚ)
        (records : List (Except Unit (List String))) (elapsed : Nat),
      extractAndStoreSubjects topicId false hasAnalyzer hasMemoryPlan minConf records elapsed =
        .error ("Memories not enabled for topic: " ++ topicId)) ∧
    (∀ (topicId : String) (hasMemoryPlan : Bool) (minConf : ℚ)
        (records : List (Except Unit (List String))) (elapsed : Nat),
      extractAndStoreSubjects topicId true false hasMemoryPlan minConf records elapsed =
        .error "Topic analyzer not available") ∧
    (∀ (topicId : String) (minConf : ℚ)
        (records : List (Except Unit (List String))) (elapsed : Nat),
      extractAndStoreSubjects topicId true true false minConf records elapsed =
        .error "Memory plan not available") ∧
    (∀ (topicId : String) (minConf : ℚ)
        (records : List (Except Unit (List String))) (elapsed : Nat),
      extractAndStoreSubjects topicId true true true minConf records elapsed =
        .ok ⟨extractSubjectsCore minConf records, records.length, elapsed⟩) ∧
    (∀ (n : Nat) (minConf : ℚ) (pre post : List (Except Unit (List String))),
      extractSubjectsWith n minConf (pre ++ .error () :: post) =
        extractSubjectsWith n minConf (pre ++ post)) := by
  refine ⟨fun _ _ _ _ _ _ => rfl, fun _ _ _ _ _ => rfl, fun _ _ _ _ => rfl,
    fun _ _ _ _ => rfl, ?_⟩
  intro n minConf pre post
  simp only [extractSubjectsWith, List.foldl_append, List.foldl_cons, processRecord]

/-! ## Claim C2 -/

theorem jsMapInc_countInv {f : String → Option Nat} {seen : List String}
    (hinv : ∀ k, f k = if seen.count k = 0 then none else some (seen.count k)) (w : String) :
    ∀ k, jsMapInc f w k =
      if (seen ++ [w]).count k = 0 then none else some ((seen ++ [w]).count k) := by
  intro k
  by_cases hk : k = w
  · subst hk
    simp only [jsMapInc, if_pos rfl]
    have hc : (seen ++ [k]).count k = seen.count k + 1 := by
      simp [List.count_append]
    rw [hc]
    have hg : (f k).getD 0 = seen.count k := by
      rw [hinv k]
      by_cases h0 : seen.count k = 0
      · simp [h0]
      · simp [h0]
    rw [hg]
    simp
  · simp only [jsMapInc, if_neg hk]
    have hc : (seen ++ [w]).count k = seen.count k := by
      have : [w].count k = 0 := by
        simp [List.count_singleton]
        exact fun hh => hk hh.symm
      simp [List.count_append, this]
    rw [hc, hinv k]

theorem foldl_jsMapInc_countInv :
    ∀ (ws : List String) (f : String → Option Nat) (seen : List String),
      (∀ k, f k = if seen.count k = 0 then none else some (seen.count k)) →
      ∀ k, (ws.foldl jsMapInc f) k =
        if (seen ++ ws).count k = 0 then none else some ((seen ++ ws).count k) := by
  intro ws
  induction ws with
  | nil =>
      intro f seen hinv k
      simpa using hinv k
  | cons w t ih =>
      intro f seen hinv k
      have h2 := ih (jsMapInc f w) (seen ++ [w]) (jsMapInc_countInv hinv w) k
      have hassoc : (seen ++ [w]) ++ t = seen ++ w :: t := by simp
      rw [List.foldl_cons, h2, hassoc]

theorem foldl_sum_count (freq : String → Option Nat) (seen2 : List String)
    (hinv : ∀ k, freq k = if seen2.count k = 0 then none else some (seen2.count k)) :
    ∀ (top : List String) (a : ℚ), (∀ kw ∈ top, jsToLower kw ∈ seen2) →
      top.foldl (fun sm kw => sm + (jsGetOr (freq (jsToLower kw)) 1 : ℚ)) a =
        a + ((top.map (fun kw => (seen2.count (jsToLower kw) : ℚ))).sum) := by
  intro top
  induction top with
  | nil =>
      intro a _
      simp
  | cons kw t ih =>
      intro a hmem
      have hpos : 0 < seen2.count (jsToLower kw) :=
        List.count_pos_iff.mpr (hmem kw (List.mem_cons_self kw t))
      have hne : ¬ seen2.count (jsToLower kw) = 0 := Nat.pos_iff_ne_zero.mp hpos
      have hg : jsGetOr (freq (jsToLower kw)) 1 = seen2.count (jsToLower kw) := by
        rw [hinv, if_neg hne]
        simp [jsGetOr, hne]
      rw [List.foldl_cons, ih _ (fun kw' h' => hmem kw' (List.mem_cons_of_mem _ h')), hg,
        List.map_cons, List.sum_cons]
      ring

theorem processRecord_ok (n : Nat) (minConf : ℚ)
    (st : (String → Option Nat) × List ExtractedSubject) (kws : List String)
    (hlen : kws.length > 0) :
    processRecord n minConf st (.ok kws) =
      (let freq := kws.foldl (fun f kw => jsMapInc f (jsToLower kw)) st.1
       let conf := min (((kws.take 3).foldl
         (fun sm kw => sm + (jsGetOr (freq (jsToLower kw)) 1 : ℚ)) 0 /
           ((kws.take 3).length : ℚ)) / (n : ℚ)) 1
       if minConf ≤ conf then
         (freq, st.2 ++ [⟨String.intercalate " " (kws.take 3), kws.take 3, conf⟩])
       else (freq, st.2)) := by
  simp only [processRecord]
  rw [if_pos hlen]

theorem extract_loop_eq :
    ∀ (records : List (Except Unit (List String))) (n : Nat) (minConf : ℚ)
      (f : String → Option Nat) (seen : List String) (cands : List ExtractedSubject),
      (∀ k, f k = if seen.count k = 0 then none else some (seen.count k)) →
      (records.foldl (processRecord n minConf) (f, cands)).2 =
        cands ++ extractSubjectsAmendedC2 n minConf seen records := by
  intro records
  induction records with
  | nil =>
      intro n minConf f seen cands _
      simp [extractSubjectsAmendedC2]
  | cons r rest ih =>
      intro n minConf f seen cands hinv
      cases r with
      | error u =>
          rw [List.foldl_cons,
            show processRecord n minConf (f, cands) (.error u) = (f, cands) from rfl,
            ih n minConf f seen cands hinv]
          rfl
      | ok kws =>
          by_cases hlen : kws.length > 0
          · rw [List.foldl_cons, processRecord_ok n minConf (f, cands) kws hlen]
            have hinv2 : ∀ k,
                (kws.foldl (fun f kw => jsMapInc f (jsToLower kw)) f) k =
                  if (seen ++ kws.map jsToLower).count k = 0 then none
                  else some ((seen ++ kws.map jsToLower).count k) := by
              have hfold : kws.foldl (fun acc kw => jsMapInc acc (jsToLower kw)) f =
                  (kws.map jsToLower).foldl jsMapInc f :=
                (List.foldl_map jsToLower jsMapInc kws f).symm
              rw [hfold]
              exact foldl_jsMapInc_countInv (kws.map jsToLower) f seen hinv
            have hmem : ∀ kw ∈ kws.take 3, jsToLower kw ∈ seen ++ kws.map jsToLower := by
              intro kw hkw
              exact List.mem_append.mpr
                (Or.inr (List.mem_map_of_mem _ (List.mem_of_mem_take hkw)))
            have hsum := foldl_sum_count _ _ hinv2 (kws.take 3) 0 hmem
            simp only [extractSubjectsAmendedC2]
            rw [if_pos hlen]
            simp only [hsum, zero_add]
            split
            next hc =>
                rw [ih n minConf _ (seen ++ kws.map jsToLower) _ hinv2, List.append_assoc]
            next hc =>
                rw [ih n minConf _ (seen ++ kws.map jsToLower) _ hinv2]
                rfl
          · have hz : kws.length = 0 := Nat.eq_zero_of_not_pos hlen
            have hnil : kws = [] := List.length_eq_zero.mp hz
            subst hnil
            rw [List.foldl_cons, show processRecord n minConf (f, cands) (.ok []) = (f, cands)
              from rfl, ih n minConf f seen cands hinv]
            simp [extractSubjectsAmendedC2]

/--
C2, amended.  For every batch and minimum confidence, the extraction loop
produces exactly the candidates described record-by-record: a record with
extracted keywords yields a candidate whose label and keywords are the
record's own first up-to-3 extracted keywords (joined by spaces), whose
confidence is the average of their lowercased frequencies counted through the
current record inclusive divided by the total record count, capped at 1.0,
and candidates whose confidence is below the configured minimum are
discarded.
-/
theorem c2_amended_pipeline :
    ∀ (minConf : ℚ) (records : List (Except Unit (List String))),
      extractSubjectsCore minConf records =
        extractSubjectsAmendedC2 records.length minConf [] records := by
  intro minConf records
  have h := extract_loop_eq records records.length minConf (fun _ => none) [] []
    (fun k => by simp)
  simpa [extractSubjectsCore, extractSubjectsWith] using h

/--
C2, counterexample.  The claim says each candidate's label is built from the
3 most-frequent-so-far keywords.  In the batch `["alpha"], ["alpha"], ["beta"]`
(with the minimum confidence configured to 0 so nothing is discarded), the
third record's candidate is labelled `"beta"` with confidence `1/3` — the
code takes the record's own first keywords — while any most-frequent-so-far
labelling (transcribed in `extractSubjectsClaimC2`) must contain `"alpha"`,
whose running frequency 2 strictly dominates, and scores confidence `1/2`.
-/
theorem c2_counterexample :
    extractSubjectsCore 0 [.ok ["alpha"], .ok ["alpha"], .ok ["beta"]] =
      [⟨"alpha", ["alpha"], 1 / 3⟩, ⟨"alpha", ["alpha"], 2 / 3⟩, ⟨"beta", ["beta"], 1 / 3⟩] ∧
    extractSubjectsClaimC2 3 0 [] [.ok ["alpha"], .ok ["alpha"], .ok ["beta"]] =
      [⟨"alpha", ["alpha"], 1 / 3⟩, ⟨"alpha", ["alpha"], 2 / 3⟩,
       ⟨"alpha beta", ["alpha", "beta"], 1 / 2⟩] ∧
    ¬ ("beta" = "alpha beta") := by
  have hba : ("beta" : String) ≠ "alpha" := by decide
  have hab : ("alpha" : String) ≠ "beta" := by decide
  have hla : jsToLower "alpha" = "alpha" := by decide
  have hlb : jsToLower "beta" = "beta" := by decide
  have hia : String.intercalate " " ["alpha"] = "alpha" := by decide
  have hib : String.intercalate " " ["beta"] = "beta" := by decide
  refine ⟨?_, ?_, by decide⟩
  · norm_num [extractSubjectsCore, extractSubjectsWith, processRecord, jsMapInc, jsGetOr,
      min_def, hba, hab, hla, hlb, hia, hib]
  · have t1 : (sortByCountDesc (fun k => (["alpha"] : List String).count k)
        (jsSetOf ["alpha"])).take 3 = ["alpha"] := by decide
    have t2 : (sortByCountDesc (fun k => (["alpha", "alpha"] : List String).count k)
        (jsSetOf ["alpha", "alpha"])).take 3 = ["alpha"] := by decide
    have t3 : (sortByCountDesc (fun k => (["alpha", "alpha", "beta"] : List String).count k)
        (jsSetOf ["alpha", "alpha", "beta"])).take 3 = ["alpha", "beta"] := by decide
    have c1 : (["alpha"] : List String).count "alpha" = 1 := by decide
    have c2 : (["alpha", "alpha"] : List String).count "alpha" = 2 := by decide
    have c3 : (["alpha", "alpha", "beta"] : List String).count "alpha" = 2 := by decide
    have c4 : (["alpha", "alpha", "beta"] : List String).count "beta" = 1 := by decide
    have hiab : String.intercalate " " ["alpha", "beta"] = "alpha beta" := by decide
    norm_num [extractSubjectsClaimC2, min_def, hla, hlb, hia, hib, hiab,
      t1, t2, t3, c1, c2, c3, c4]

/-! ## Claim C4 -/

theorem toFinset_addEff_removeEff {id : String} {p : List String} (hid : id ∈ p) :
    (addEff id (removeEff id (some p))).map List.toFinset = (some p).map List.toFinset := by
  simp only [removeEff]
  by_cases h : (p.filter (fun y => ¬ y = id)).length = 0
  · rw [if_pos h]
    have hall : ∀ x ∈ p, x = id := by
      intro x hx
      by_contra hne
      have hmem : x ∈ p.filter (fun y => ¬ y = id) := by
        simp only [List.mem_filter, decide_eq_true_eq]
        exact ⟨hx, hne⟩
      rw [List.length_eq_zero.mp h] at hmem
      simp at hmem
    have haddeff : addEff id none = some [id] := by simp [addEff, jsSetAdd]
    rw [haddeff]
    refine congrArg some ?_
    ext x
    simp only [List.mem_toFinset, List.mem_singleton]
    constructor
    · rintro rfl
      exact hid
    · intro hx
      exact hall x hx
  · rw [if_neg h]
    have hnot : ¬ id ∈ p.filter (fun y => ¬ y = id) := by simp
    have haddeff : addEff id (some (p.filter (fun y => ¬ y = id))) =
        some (p.filter (fun y => ¬ y = id) ++ [id]) := by
      simp [addEff, jsSetAdd, hnot]
    rw [haddeff]
    refine congrArg some ?_
    ext x
    simp only [List.mem_toFinset, List.mem_append, List.mem_filter, List.mem_singleton,
      decide_eq_true_eq]
    constructor
    · rintro (⟨hx, _⟩ | rfl)
      · exact hx
      · exact hid
    · intro hx
      by_cases hxi : x = id
      · exact Or.inr hxi
      · exact Or.inl ⟨hx, hxi⟩

/--
C4.  On every reachable index state, `updateSubject(e)` behaves as
`addSubject(e)` when no entry is stored under `e.idHash`, and otherwise
produces the same state (stored entries pointwise, posting lists as sets) as
`removeSubject(e.idHash)` followed by `addSubject(e)`; consequently after
`updateSubject` the subject is returned by `findByKeywords` for any query
containing one of its (normalized) keywords, and is not returned for queries
made exclusively of keywords that were removed by the update.
-/
theorem c4_update_equiv :
    ∀ (s : SubjectIndex) (e : IndexEntry), Reachable s →
      ((mapGet s.subjects e.idHash = none → updateSubject e s = addSubject e s) ∧
       (∀ old, mapGet s.subjects e.idHash = some old →
          StateEquiv (updateSubject e s) (addSubject e (removeSubject e.idHash s).2)) ∧
       (∀ q, (∃ kw ∈ normalizeKeywords q, kw ∈ e.normalizedKeywords) →
          ∃ m ∈ findByKeywords q (updateSubject e s), m.idHash = e.idHash) ∧
       (∀ old q, mapGet s.subjects e.idHash = some old →
          (∀ kw ∈ normalizeKeywords q, kw ∈ old.normalizedKeywords ∧
            ¬ kw ∈ e.normalizedKeywords) →
          ∀ m ∈ findByKeywords q (updateSubject e s), ¬ m.idHash = e.idHash)) := by
  intro s e hreach
  obtain ⟨hkc, hpc⟩ := reachable_wf hreach
  refine ⟨updateSubject_of_not_found, ?_, ?_, ?_⟩
  · intro old hget
    constructor
    · intro k
      rw [updateSubject_subjects_get, addSubject_subjects_get, removeSubject_subjects_get hget]
      by_cases hk : k = e.idHash
      · rw [if_pos hk, if_pos hk]
      · rw [if_neg hk, if_neg hk, if_neg hk]
    · intro kw
      rw [updateSubject_ktos_get hget, addSubject_ktos_get, removeSubject_ktos_get hget]
      by_cases he : kw ∈ e.normalizedKeywords
      · by_cases ho : kw ∈ old.normalizedKeywords
        · simp only [if_pos he, if_pos ho]
          obtain ⟨p, hp, hid⟩ := hpc e.idHash old hget kw ho
          rw [hp]
          exact (toFinset_addEff_removeEff hid).symm
        · simp only [if_pos he, if_neg ho]
      · by_cases ho : kw ∈ old.normalizedKeywords
        · simp only [if_neg he, if_pos ho]
        · simp only [if_neg he, if_neg ho]
  · rintro q ⟨kw0, hkw0q, hkw0e⟩
    have hpost : postingMem (updateSubject e s) kw0 e.idHash := by
      cases hget : mapGet s.subjects e.idHash with
      | none =>
          rw [updateSubject_of_not_found hget]
          unfold postingMem
          rw [addSubject_ktos_get, if_pos hkw0e]
          exact id_mem_addEff e.idHash _
      | some old =>
          unfold postingMem
          rw [updateSubject_ktos_get hget, if_pos hkw0e]
          by_cases ho : kw0 ∈ old.normalizedKeywords
          · rw [if_pos ho]
            exact hpc e.idHash old hget kw0 ho
          · rw [if_neg ho]
            exact id_mem_addEff e.idHash _
    have hsubj : mapGet (updateSubject e s).subjects e.idHash = some e := by
      rw [updateSubject_subjects_get, if_pos rfl]
    obtain ⟨p, hp, hmem⟩ := hpost
    have hcand : e.idHash ∈ gatherCandidates (normalizeKeywords q)
        (updateSubject e s).keywordToSubjects :=
      mem_gatherCandidates.mpr ⟨kw0, hkw0q, p, hp, hmem⟩
    have hmk : (findMatchingKeywords (jsSetOf (normalizeKeywords q))
        e.normalizedKeywords).length > 0 := by
      have hin : kw0 ∈ findMatchingKeywords (jsSetOf (normalizeKeywords q))
          e.normalizedKeywords :=
        mem_findMatchingKeywords_of_exact (mem_jsSetOf.mpr hkw0q) hkw0e
      exact List.length_pos.mpr (List.ne_nil_of_mem hin)
    exact ⟨matchOfEntry (jsSetOf (normalizeKeywords q)) e,
      mem_findByKeywords.mpr ⟨e.idHash, hcand, e, hsubj, hmk, rfl⟩, rfl⟩
  · intro old q hget hq m hm
    obtain ⟨c, hc, entry, hce, hlen2, hmeq⟩ := mem_findByKeywords.mp hm
    have hwf' := wf_update ⟨hkc, hpc⟩ e
    have hidc : m.idHash = c := by
      rw [hmeq]
      exact hwf'.1 c entry hce
    obtain ⟨kw, hkwq, p, hp, hcp⟩ := mem_gatherCandidates.mp hc
    obtain ⟨ho, hne⟩ := hq kw hkwq
    rw [updateSubject_ktos_get hget, if_neg hne, if_pos ho] at hp
    have hnid : ¬ e.idHash ∈ p := not_mem_removeEff e.idHash _ p hp
    intro heq
    rw [hidc] at heq
    exact hnid (heq ▸ hcp)

/-- C4 witness: updating a fresh entry on the empty (reachable) index makes it
findable under its keyword. -/
theorem c4_update_equiv_witness :
    ∃ m ∈ findByKeywords ["k"] (updateSubject ⟨"w4", "n", ["k"], ["k"], []⟩ initIndex),
      m.idHash = "w4" :=
  (c4_update_equiv initIndex ⟨"w4", "n", ["k"], ["k"], []⟩ Reachable.init).2.2.1 ["k"]
    ⟨"k", by decide, by decide⟩

/-! ## Claim C10 -/

theorem keyCoherent_of_b {s : SubjectIndex} (h : keyCoherentB s = true) : KeyCoherent s := by
  intro k e hget
  have hmem := mapGet_eq_some_mem hget
  have hdec := List.all_eq_true.mp h _ hmem
  exact of_decide_eq_true hdec

theorem exactPostings_of_b {s : SubjectIndex} (h : exactPostingsB s = true) :
    ∀ kw id, postingMem s kw id →
      ∃ e, mapGet s.subjects id = some e ∧ kw ∈ e.normalizedKeywords := by
  rintro kw id ⟨p, hp, hid⟩
  have hmem := mapGet_eq_some_mem hp
  have h1 := List.all_eq_true.mp h _ hmem
  have h2 := List.all_eq_true.mp h1 _ hid
  cases hge : mapGet s.subjects id with
  | none =>
      rw [hge] at h2
      simp at h2
  | some e =>
      rw [hge] at h2
      simp only [decide_eq_true_eq] at h2
      exact ⟨e, rfl, h2⟩

/--
C10, counterexample.  The claim says every match returned by `findByKeywords`
has at least one normalized query keyword exactly in the subject's normalized
keyword set, so a subject related only by substring containment is never
returned.  On the reachable state `c10StaleState` — the entry was re-added
under the same id with keywords `["cat"]`, leaving a stale posting list for
`"cats"` — the query `["cats"]` returns the subject although its stored
normalized keyword set `["cat"]` contains no query keyword exactly: only the
substring fallback matched.
-/
theorem c10_counterexample :
    (findByKeywords ["cats"] c10StaleState).map SubjectMatch.idHash = ["s"] ∧
    (findByKeywords ["cats"] c10StaleState).map SubjectMatch.matchingKeywords = [["cats"]] ∧
    getSubject "s" c10StaleState = some ⟨"s", "n", ["cat"], ["cat"], []⟩ ∧
    normalizeKeywords ["cats"] = ["cats"] ∧
    ¬ ("cats" ∈ (["cat"] : List String)) ∧
    Reachable c10StaleState := by
  refine ⟨by decide, by decide, by decide, by decide, by decide, ?_⟩
  exact Reachable.add _ (Reachable.add _ Reachable.init)

/--
C10, amended.  The `matchingKeywords` list of every returned match is
non-empty (the discard branch guarantees it).  When every posting-list member
is backed by a stored entry still listing that keyword and entries are keyed
by their own id (`ExactIndex`, which holds e.g. for states built without
keyword-changing overwrites), every match has at least one normalized query
keyword exactly in its subject's normalized keyword set; a stale posting left
by an overwriting `addSubject` can, however, surface a subject related to the
query only by substring containment.
-/
theorem c10_exact_matches :
    (∀ (s : SubjectIndex) (q : List String) (m : SubjectMatch),
      m ∈ findByKeywords q s → ¬ m.matchingKeywords = []) ∧
    (∀ (s : SubjectIndex) (q : List String) (m : SubjectMatch), ExactIndex s →
      m ∈ findByKeywords q s →
      ∃ kw ∈ normalizeKeywords q, ∃ entry, mapGet s.subjects m.idHash = some entry ∧
        kw ∈ entry.normalizedKeywords) := by
  constructor
  · intro s q m hm
    obtain ⟨c, hc, entry, hce, hlen, hmeq⟩ := mem_findByKeywords.mp hm
    rw [hmeq]
    simp only [matchOfEntry]
    intro hnil
    rw [hnil] at hlen
    simp at hlen
  · rintro s q m ⟨hkc, hexact⟩ hm
    obtain ⟨c, hc, entry, hce, hlen, hmeq⟩ := mem_findByKeywords.mp hm
    obtain ⟨kw, hkwq, p, hp, hcp⟩ := mem_gatherCandidates.mp hc
    obtain ⟨e', he', hkwmem⟩ := hexact kw c ⟨p, hp, hcp⟩
    have hmid : m.idHash = c := by
      rw [hmeq]
      exact hkc c entry hce
    refine ⟨kw, hkwq, e', ?_, hkwmem⟩
    rw [hmid]
    exact he'

/-- C10 witness: on an exact one-subject index the returned match carries an
exact keyword. -/
theorem c10_exact_matches_witness :
    ∃ kw ∈ normalizeKeywords ["rust"],
      ∃ entry,
        mapGet (addSubject ⟨"s1", "n1", ["rust"], ["rust"], []⟩ initIndex).subjects
          (matchOfEntry (jsSetOf (normalizeKeywords ["rust"]))
            ⟨"s1", "n1", ["rust"], ["rust"], []⟩).idHash = some entry ∧
        kw ∈ entry.normalizedKeywords :=
  c10_exact_matches.2 (addSubject ⟨"s1", "n1", ["rust"], ["rust"], []⟩ initIndex) ["rust"]
    (matchOfEntry (jsSetOf (normalizeKeywords ["rust"])) ⟨"s1", "n1", ["rust"], ["rust"], []⟩)
    ⟨keyCoherent_of_b (by decide), exactPostings_of_b (by decide)⟩
    (mem_findByKeywords.mpr ⟨"s1", by decide, ⟨"s1", "n1", ["rust"], ["rust"], []⟩,
      by decide, by decide, rfl⟩)

end MemoryCore
